import Mathlib

/-!
Verification of the Merkle leaf-range RPC service
(src/pallets/merkle/rpc/src/lib.rs, method merkle_treeLeaves / tree_leaves).

The embedding models the body of MerkleClient.tree_leaves:

  let api = self.client.runtime_api();
  let at = BlockId::hash(at.unwrap_or_else(|| self.client.info().best_hash));
  if to - from >= 512 { return Err(Error { code: ServerError(1512),
      message: "TooManyLeaves", data: Some("MaxRange512") }); }
  let leaves = (from..to).into_iter()
      .map(|i| api.get_leaf(&at, tree_id, i as u32)) // Result<Option<ScalarData>>
      .flatten()  // drops Err results
      .flatten()  // drops None
      .map(|v| v.0.to_bytes())
      .collect();
  Ok(leaves)

usize is modelled as Nat reduced mod 2^64 (release-build wrapping semantics,
which is what the spec itself describes for the subtraction), u32 casts as
mod 2^32.  The external state engine (HeaderBackend best_hash plus the
runtime api get_leaf) is a record of two capabilities; block hashes,
ScalarData values, engine errors and the byte representation are opaque
type parameters.
-/

/-- Modulus of a 64-bit usize. -/
def USIZE : Nat := 2 ^ 64

/-- Modulus of a u32. -/
def U32 : Nat := 2 ^ 32

/-- Wrapping usize subtraction: the value of the Rust expression a - b on
usize in release builds, for operands already reduced mod 2^64. -/
def wrapSub (a b : Nat) : Nat := (a % USIZE + (USIZE - b % USIZE)) % USIZE

/-- jsonrpc_core error codes, as used by this service. -/
inductive ErrorCode where
  | serverError : Int → ErrorCode
deriving DecidableEq, Repr

/-- jsonrpc_core structured error: code, message, optional data payload. -/
structure RpcError where
  code : ErrorCode
  message : String
  data : Option String
deriving DecidableEq, Repr

/-- The error returned when the requested span is too large
(ServerError 1512, "TooManyLeaves", data "MaxRange512"). -/
def rangeError : RpcError :=
  ⟨ErrorCode.serverError 1512, "TooManyLeaves", some "MaxRange512"⟩

/-- The state engine as seen by the service: the best (head) block hash from
HeaderBackend, and the runtime api call
get_leaf(at, tree_id, index) -> Result<Option<ScalarData>, E>. -/
structure Engine (H V E : Type) where
  best_hash : H
  get_leaf : H → Nat → Nat → Except E (Option V)

/-- One per-index step of the iterator chain: call get_leaf with the index
cast to u32, drop Err (first flatten), drop None (second flatten), and map a
present value through to_bytes. -/
def fetchLeaf {H V E B : Type} (e : Engine H V E) (to_bytes : V → B)
    (at_ : H) (tree_id i : Nat) : Option B :=
  match e.get_leaf at_ tree_id (i % U32) with
  | .ok (some v) => some (to_bytes v)
  | _ => none

/-- The embedded tree_leaves RPC method.  Arguments mirror the Rust
signature: tree_id (u32), from and to (usize), at (optional block hash). -/
def tree_leaves {H V E B : Type} (e : Engine H V E) (to_bytes : V → B)
    (tree_id from_ to_ : Nat) (at0 : Option H) : Except RpcError (List B) :=
  let at_ := at0.getD e.best_hash
  if 512 ≤ wrapSub to_ from_ then
    .error rangeError
  else
    .ok ((List.range' from_ (to_ - from_)).filterMap (fetchLeaf e to_bytes at_ tree_id))

/-- Instrumented variant of tree_leaves that additionally returns the trace
of engine fetches performed: one (snapshot, tree_id, index) triple per
get_leaf call, in call order.  Its first component coincides with
tree_leaves (see tree_leaves_trace_fst). -/
def tree_leaves_trace {H V E B : Type} (e : Engine H V E) (to_bytes : V → B)
    (tree_id from_ to_ : Nat) (at0 : Option H) :
    Except RpcError (List B) × List (H × Nat × Nat) :=
  let at_ := at0.getD e.best_hash
  if 512 ≤ wrapSub to_ from_ then
    (.error rangeError, [])
  else
    (.ok ((List.range' from_ (to_ - from_)).filterMap (fetchLeaf e to_bytes at_ tree_id)),
     (List.range' from_ (to_ - from_)).map (fun i => (at_, tree_id, i % U32)))

/-- A concrete engine over Nat hashes/values in which every slot is absent;
used for witnesses. -/
def eW : Engine Nat Nat Unit :=
  ⟨5, fun _ _ _ => .ok none⟩

/-- A concrete engine in which every get_leaf call fails at engine level. -/
def errEngine : Engine Nat Nat Unit :=
  ⟨5, fun _ _ _ => .error ()⟩

instance {A B : Type} [DecidableEq A] [DecidableEq B] : DecidableEq (Except A B) :=
  fun x y =>
    match x, y with
    | .ok a, .ok b => decidable_of_iff (a = b) (by simp)
    | .error a, .error b => decidable_of_iff (a = b) (by simp)
    | .ok _, .error _ => isFalse (by simp)
    | .error _, .ok _ => isFalse (by simp)

/-- An engine in which every slot of every tree is present, holding
index + 100. -/
def eP : Engine Nat Nat Unit :=
  ⟨5, fun _ _ i => .ok (some (i + 100))⟩

/-- A sparse engine: index 1 is absent, every other index holds
index + 100. -/
def eS : Engine Nat Nat Unit :=
  ⟨5, fun _ _ i => .ok (if i = 1 then none else some (i + 100))⟩

/-- An engine equal to eW except for its best hash; used to witness
that tree_leaves at an explicit snapshot ignores the head pointer. -/
def eW2 : Engine Nat Nat Unit :=
  ⟨9, fun _ _ _ => .ok none⟩

theorem USIZE_eq : USIZE = 18446744073709551616 := by norm_num [USIZE]

theorem wrapSub_of_le (a b : Nat) (hb : b ≤ a) (ha : a < USIZE) : wrapSub a b = a - b := by
  rw [USIZE_eq] at ha
  simp only [wrapSub, USIZE_eq]
  omega

theorem wrapSub_of_lt (a b : Nat) (hab : a < b) (hb : b < USIZE) :
    wrapSub a b = USIZE - (b - a) := by
  rw [USIZE_eq] at hb ⊢
  simp only [wrapSub, USIZE_eq]
  omega

theorem wrapSub_self (a : Nat) : wrapSub a a = 0 := by
  simp only [wrapSub, USIZE_eq]
  omega

theorem filterMap_congr_mem {A B : Type} (l : List A) (f g : A → Option B)
    (h : ∀ a ∈ l, f a = g a) : l.filterMap f = l.filterMap g := by
  induction l with
  | nil => rfl
  | cons x xs ih =>
    simp only [List.filterMap_cons, h x (List.mem_cons_self x xs),
      ih (fun a ha => h a (List.mem_cons_of_mem x ha))]

theorem filterMap_eq_map_of_forall {A B : Type} (l : List A) (f : A → Option B) (g : A → B)
    (h : ∀ a ∈ l, f a = some (g a)) : l.filterMap f = l.map g := by
  induction l with
  | nil => rfl
  | cons x xs ih =>
    simp only [List.filterMap_cons, h x (List.mem_cons_self x xs), List.map_cons,
      ih (fun a ha => h a (List.mem_cons_of_mem x ha))]

theorem length_filterMap_lt_of_none {A B : Type} (l : List A) (f : A → Option B)
    (j : A) (hj : j ∈ l) (hn : f j = none) :
    (l.filterMap f).length < l.length := by
  induction l with
  | nil => cases hj
  | cons x xs ih =>
    rcases List.mem_cons.mp hj with rfl | hmem
    · rw [List.filterMap_cons, hn]
      exact Nat.lt_succ_of_le (List.length_filterMap_le f xs)
    · cases hfx : f x with
      | none =>
        rw [List.filterMap_cons, hfx]
        exact Nat.lt_succ_of_lt (ih hmem)
      | some b =>
        rw [List.filterMap_cons, hfx]
        simpa using Nat.succ_lt_succ (ih hmem)

/-- The trace-collecting variant computes the same RPC result as the plain
embedding; the trace is pure instrumentation. -/
theorem tree_leaves_trace_fst {H V E B : Type} (e : Engine H V E) (tb : V → B)
    (tid from_ to_ : Nat) (a : Option H) :
    (tree_leaves_trace e tb tid from_ to_ a).1 = tree_leaves e tb tid from_ to_ a := by
  by_cases h : 512 ≤ wrapSub to_ from_ <;> simp [tree_leaves, tree_leaves_trace, h]

/-- C6: for every request with from == to (empty range), tree_leaves returns
Ok with an empty response, performs no engine leaf fetches (empty trace), and
is not rejected by the range-size guard (the span is 0, so the result is Ok,
not the rangeError). -/
theorem tree_leaves_empty_range {H V E B : Type} (e : Engine H V E) (tb : V → B)
    (tid n : Nat) (a : Option H) :
    tree_leaves_trace e tb tid n n a = (.ok [], []) := by
  have h : ¬ 512 ≤ wrapSub n n := by rw [wrapSub_self]; omega
  simp [tree_leaves_trace, h]

/-- C1 (failing input): the spec requires an engine-level Err on any index to
fail the whole tree_leaves call with an error; the code instead drops Err
results silently (the first .flatten() in the iterator chain discards the
Err arm of each Result).  At the failing input — an engine whose get_leaf
always returns Err, with a valid span from=0, to=1 — the call returns
Ok([]) rather than an error, even though the engine failed on index 0. -/
theorem tree_leaves_engine_err_returns_ok :
    tree_leaves errEngine id 0 0 1 none = .ok [] ∧
    errEngine.get_leaf 0 0 0 = .error () := by decide

/-- C2 (counterexample): with to=0 and from=2^64-1 we have to < from, yet the
wrapped span (to - from on usize) is 1, which is below 512, so the range
guard does NOT reject the request and the call succeeds with Ok([]) instead
of failing with the TooManyLeaves error, refuting the claim that the wrapped
span is guaranteed to be at least 512 for every to < from. -/
theorem tree_leaves_wrap_not_rejected :
    (0 : Nat) < USIZE - 1 ∧
    wrapSub 0 (USIZE - 1) = 1 ∧
    tree_leaves eW id 0 (USIZE - 1) 0 none = .ok [] := by decide

/-- C2 (amended): for every request with to < from (operands in usize range),
the wrapped span to - from equals 2^64 - (from - to).  It reaches the 512
guard — so the call fails with the TooManyLeaves rangeError — exactly when
from - to <= 2^64 - 512; when from - to > 2^64 - 512 the guard passes, but
the iteration range from..to is then empty, so the call returns Ok([]).  In
either case no leaf is fetched from the engine (empty trace). -/
theorem tree_leaves_inverted_range {H V E B : Type} (e : Engine H V E) (tb : V → B)
    (tid from_ to_ : Nat) (a : Option H)
    (hf : from_ < USIZE) (hlt : to_ < from_) :
    (tree_leaves_trace e tb tid from_ to_ a).2 = [] ∧
    (from_ - to_ ≤ USIZE - 512 →
      tree_leaves e tb tid from_ to_ a = .error rangeError) ∧
    (USIZE - 512 < from_ - to_ →
      tree_leaves e tb tid from_ to_ a = .ok []) := by
  have hw : wrapSub to_ from_ = USIZE - (from_ - to_) := wrapSub_of_lt to_ from_ hlt hf
  have hz : to_ - from_ = 0 := by omega
  have hU : USIZE = 18446744073709551616 := USIZE_eq
  refine ⟨?_, ?_, ?_⟩
  · by_cases h : 512 ≤ wrapSub to_ from_ <;> simp [tree_leaves_trace, h, hz]
  · intro h
    have hg : 512 ≤ wrapSub to_ from_ := by rw [hw]; omega
    simp [tree_leaves, hg]
  · intro h
    have hg : ¬ 512 ≤ wrapSub to_ from_ := by rw [hw]; omega
    simp [tree_leaves, hg, hz]

/-- C2 (witness): the amended statement instantiated at from = 2^64 - 1,
to = 0: the wrapped span is 1, the guard passes, and the call returns Ok([])
with no engine fetch. -/
theorem tree_leaves_inverted_range_witness :
    (tree_leaves_trace eW id 0 (USIZE - 1) 0 none).2 = [] ∧
    (USIZE - 1 - 0 ≤ USIZE - 512 →
      tree_leaves eW id 0 (USIZE - 1) 0 none = .error rangeError) ∧
    (USIZE - 512 < USIZE - 1 - 0 →
      tree_leaves eW id 0 (USIZE - 1) 0 none = .ok []) :=
  tree_leaves_inverted_range eW id 0 (USIZE - 1) 0 none (by decide) (by decide)

/-- C3: for every request with to >= from and span to - from >= 512 (operands
in usize range), tree_leaves fails with the TooManyLeaves rangeError — whose
code is ServerError 1512 and whose data payload "MaxRange512" identifies the
maximum allowed span of 512 — and performs zero engine fetches (empty
trace); the boundary is inclusive: every span < 512 (in particular 511) is
not rejected by the guard and yields an Ok result. -/
theorem tree_leaves_range_guard {H V E B : Type} (e : Engine H V E) (tb : V → B)
    (tid from_ to_ : Nat) (a : Option H)
    (ht : to_ < USIZE) (hle : from_ ≤ to_) :
    (512 ≤ to_ - from_ →
      tree_leaves_trace e tb tid from_ to_ a = (.error rangeError, []) ∧
      rangeError.code = ErrorCode.serverError 1512 ∧
      rangeError.message = "TooManyLeaves" ∧
      rangeError.data = some "MaxRange512") ∧
    (to_ - from_ < 512 →
      ∃ l, (tree_leaves_trace e tb tid from_ to_ a).1 = .ok l) := by
  have hw : wrapSub to_ from_ = to_ - from_ := wrapSub_of_le to_ from_ hle ht
  constructor
  · intro h
    have hg : 512 ≤ wrapSub to_ from_ := by omega
    exact ⟨by simp [tree_leaves_trace, hg], rfl, rfl, rfl⟩
  · intro h
    have hg : ¬ 512 ≤ wrapSub to_ from_ := by omega
    exact ⟨(List.range' from_ (to_ - from_)).filterMap (fetchLeaf e tb (a.getD e.best_hash) tid),
      by simp [tree_leaves_trace, hg]⟩

/-- C3 (witness): at from = 0 the boundary values: to = 512 is rejected with
the structured TooManyLeaves error and an empty fetch trace, while to = 511
passes the guard and yields Ok. -/
theorem tree_leaves_range_guard_witness :
    (tree_leaves_trace eW id 0 0 512 none = (.error rangeError, []) ∧
      rangeError.code = ErrorCode.serverError 1512 ∧
      rangeError.message = "TooManyLeaves" ∧
      rangeError.data = some "MaxRange512") ∧
    (∃ l, (tree_leaves_trace eW id 0 0 511 none).1 = .ok l) :=
  ⟨(tree_leaves_range_guard eW id 0 0 512 none (by decide) (by decide)).1 (by decide),
   (tree_leaves_range_guard eW id 0 0 511 none (by decide) (by decide)).2 (by decide)⟩

/-- C4: for every request with to >= from and span to - from < 512 (operands
in usize range), if the engine returns Ok(Some _) for every queried index,
tree_leaves returns Ok with exactly one value per index of [from, to) in
ascending index order (the response is the image of the ascending index list
range' from (to - from)), and the response length equals to - from. -/
theorem tree_leaves_all_present {H V E B : Type} (e : Engine H V E) (tb : V → B)
    (tid from_ to_ : Nat) (a : Option H) (g : Nat → V)
    (ht : to_ < USIZE) (hle : from_ ≤ to_) (hspan : to_ - from_ < 512)
    (hall : ∀ i, from_ ≤ i → i < to_ →
      e.get_leaf (a.getD e.best_hash) tid (i % U32) = .ok (some (g i))) :
    tree_leaves e tb tid from_ to_ a =
      .ok ((List.range' from_ (to_ - from_)).map (fun i => tb (g i))) ∧
    ((List.range' from_ (to_ - from_)).map (fun i => tb (g i))).length = to_ - from_ := by
  have hw : wrapSub to_ from_ = to_ - from_ := wrapSub_of_le to_ from_ hle ht
  have hg : ¬ 512 ≤ wrapSub to_ from_ := by omega
  constructor
  · simp only [tree_leaves, hg, if_false]
    congr 1
    apply filterMap_eq_map_of_forall
    intro i hi
    rw [List.mem_range'] at hi
    obtain ⟨k, hk, hik⟩ := hi
    have h3 := hall i (by omega) (by omega)
    simp [fetchLeaf, h3]
  · simp

/-- C4 (witness): the fully-present engine eP queried on tree 7 over
[0, 2) returns both leaves, in index order, with length 2. -/
theorem tree_leaves_all_present_witness :
    tree_leaves eP id 7 0 2 none =
      .ok ((List.range' 0 (2 - 0)).map (fun i => id (i % U32 + 100))) ∧
    ((List.range' 0 (2 - 0)).map (fun i => id (i % U32 + 100))).length = 2 - 0 :=
  tree_leaves_all_present eP id 7 0 2 none (fun i => i % U32 + 100)
    (by decide) (by decide) (by decide) (fun _ _ _ => rfl)

/-- C5: for every request with to >= from and span to - from < 512 (operands
in usize range), if the engine returns Ok for every queried index but at
least one index j in [from, to) is absent (Ok(None)), tree_leaves returns Ok
with exactly the present leaves in ascending index order — absent indices
contribute nothing to the output, with no placeholder or hole marker — and
the response length is strictly less than to - from. -/
theorem tree_leaves_sparse {H V E B : Type} (e : Engine H V E) (tb : V → B)
    (tid from_ to_ : Nat) (a : Option H) (o : Nat → Option V)
    (ht : to_ < USIZE) (hle : from_ ≤ to_) (hspan : to_ - from_ < 512)
    (hok : ∀ i, from_ ≤ i → i < to_ →
      e.get_leaf (a.getD e.best_hash) tid (i % U32) = .ok (o i))
    (j : Nat) (hj1 : from_ ≤ j) (hj2 : j < to_) (hjn : o j = none) :
    tree_leaves e tb tid from_ to_ a =
      .ok ((List.range' from_ (to_ - from_)).filterMap (fun i => (o i).map tb)) ∧
    ((List.range' from_ (to_ - from_)).filterMap (fun i => (o i).map tb)).length
      < to_ - from_ := by
  have hw : wrapSub to_ from_ = to_ - from_ := wrapSub_of_le to_ from_ hle ht
  have hg : ¬ 512 ≤ wrapSub to_ from_ := by omega
  constructor
  · simp only [tree_leaves, hg, if_false]
    congr 1
    apply filterMap_congr_mem
    intro i hi
    rw [List.mem_range'] at hi
    obtain ⟨k, hk, hik⟩ := hi
    have h3 := hok i (by omega) (by omega)
    simp only [fetchLeaf, h3]
    cases ho : o i <;> simp [ho]
  · have hjmem : j ∈ List.range' from_ (to_ - from_) := by
      rw [List.mem_range']
      exact ⟨j - from_, by omega, by omega⟩
    have hlt := length_filterMap_lt_of_none _ (fun i => (o i).map tb) j hjmem
      (by simp [hjn])
    simpa using hlt

/-- C5 (witness): the sparse engine eS (index 1 absent) queried on tree 7
over [0, 3) returns only the leaves at indices 0 and 2, with length 2 < 3. -/
theorem tree_leaves_sparse_witness :
    tree_leaves eS id 7 0 3 none =
      .ok ((List.range' 0 (3 - 0)).filterMap
        (fun i => ((if i % U32 = 1 then none else some (i % U32 + 100)) : Option Nat).map id)) ∧
    ((List.range' 0 (3 - 0)).filterMap
      (fun i => ((if i % U32 = 1 then none else some (i % U32 + 100)) : Option Nat).map id)).length
      < 3 - 0 :=
  tree_leaves_sparse eS id 7 0 3 none
    (fun i => if i % U32 = 1 then none else some (i % U32 + 100))
    (by decide) (by decide) (by decide) (fun _ _ _ => rfl)
    1 (by decide) (by decide) (by decide)

/-- C7: for every request, the snapshot is resolved exactly once per call —
the absent at parameter is replaced by the engine's best hash before any
fetch — and every engine fetch recorded in the trace queries that one
resolved snapshot: the first component of every trace entry equals
at0.getD best_hash, so no call mixes snapshots across indices. -/
theorem tree_leaves_single_snapshot {H V E B : Type} (e : Engine H V E) (tb : V → B)
    (tid from_ to_ : Nat) (a : Option H) (q : H × Nat × Nat)
    (hq : q ∈ (tree_leaves_trace e tb tid from_ to_ a).2) :
    q.1 = a.getD e.best_hash := by
  by_cases h : 512 ≤ wrapSub to_ from_
  · simp [tree_leaves_trace, h] at hq
  · simp only [tree_leaves_trace, h, if_false, List.mem_map] at hq
    obtain ⟨i, _, rfl⟩ := hq
    rfl

/-- C7 (witness): in the call on eW over [0, 1) with no explicit snapshot,
the recorded fetch (5, 0, 0) indeed carries the engine's best hash 5. -/
theorem tree_leaves_single_snapshot_witness :
    ((5, 0, 0) : Nat × Nat × Nat).1 = (none : Option Nat).getD eW.best_hash :=
  tree_leaves_single_snapshot eW id 0 0 1 none (5, 0, 0) (by decide)

/-- C8: determinism — two calls with identical arguments (same tree_id, from,
to, and the same explicit snapshot) against engines exposing the same
get_leaf behaviour (in particular, two runs against the same engine state)
return identical responses. -/
theorem tree_leaves_deterministic {H V E B : Type} (e1 e2 : Engine H V E) (tb : V → B)
    (tid from_ to_ : Nat) (s : H)
    (hg : e1.get_leaf = e2.get_leaf) :
    tree_leaves e1 tb tid from_ to_ (some s) = tree_leaves e2 tb tid from_ to_ (some s) := by
  have hf : ∀ at_ t i, fetchLeaf e1 tb at_ t i = fetchLeaf e2 tb at_ t i := by
    intro at_ t i
    simp [fetchLeaf, hg]
  simp only [tree_leaves, Option.getD_some]
  rw [funext fun at_ => funext fun t => funext fun i => hf at_ t i]

/-- C8 (witness): the engines eW and eW2 share get_leaf (they differ only in
their head pointer, which an explicit snapshot bypasses), so the two calls
at snapshot 7 agree. -/
theorem tree_leaves_deterministic_witness :
    tree_leaves eW id 3 0 2 (some 7) = tree_leaves eW2 id 3 0 2 (some 7) :=
  tree_leaves_deterministic eW eW2 id 3 0 2 7 rfl

/-- C9: for every request that passes the range guard, the engine fetch
trace is exactly one entry per index i of [from, to) in order, and the index
passed to get_leaf is i truncated to 32 bits (i mod 2^32) — so indices at or
above 2^32 silently query the aliased low indices. -/
theorem tree_leaves_index_truncated {H V E B : Type} (e : Engine H V E) (tb : V → B)
    (tid from_ to_ : Nat) (a : Option H)
    (h : wrapSub to_ from_ < 512) :
    (tree_leaves_trace e tb tid from_ to_ a).2 =
      (List.range' from_ (to_ - from_)).map
        (fun i => (a.getD e.best_hash, tid, i % U32)) := by
  have hg : ¬ 512 ≤ wrapSub to_ from_ := by omega
  simp [tree_leaves_trace, hg]

/-- C9 (witness): requesting the single index 2^32 (from = 2^32,
to = 2^32 + 1) fetches index 0 from the engine: the trace is
[(5, 0, 0)], the aliased low index, not the requested position. -/
theorem tree_leaves_index_truncated_witness :
    (tree_leaves_trace eW id 0 U32 (U32 + 1) none).2 = [(5, 0, 0)] := by
  rw [tree_leaves_index_truncated eW id 0 U32 (U32 + 1) none (by decide)]
  decide

/-- C10: when get_leaf returns Err for some indices of a guard-passing range
while the other indices succeed, the call still returns Ok, and each failing
index is treated exactly like an absent leaf: an engine e1 that errs where
an engine e2 reports Ok(None) (and agrees with e2 elsewhere, with the same
best hash) produces a response identical to e2's, so a per-index engine
failure is indistinguishable in the output from a sparse slot. -/
theorem tree_leaves_err_indistinguishable {H V E B : Type} (e1 e2 : Engine H V E)
    (tb : V → B) (tid from_ to_ : Nat) (a : Option H)
    (hb : e1.best_hash = e2.best_hash)
    (hg : ∀ s t i, e1.get_leaf s t i = e2.get_leaf s t i ∨
      ((∃ err, e1.get_leaf s t i = .error err) ∧ e2.get_leaf s t i = .ok none))
    (hguard : wrapSub to_ from_ < 512) :
    (∃ l, tree_leaves e1 tb tid from_ to_ a = .ok l) ∧
    tree_leaves e1 tb tid from_ to_ a = tree_leaves e2 tb tid from_ to_ a := by
  have hn : ¬ 512 ≤ wrapSub to_ from_ := by omega
  have hfe : ∀ at_ i, fetchLeaf e1 tb at_ tid i = fetchLeaf e2 tb at_ tid i := by
    intro at_ i
    rcases hg at_ tid (i % U32) with heq | ⟨⟨err, he1⟩, he2⟩
    · simp [fetchLeaf, heq]
    · simp [fetchLeaf, he1, he2]
  constructor
  · exact ⟨(List.range' from_ (to_ - from_)).filterMap
      (fetchLeaf e1 tb (a.getD e1.best_hash) tid), by simp [tree_leaves, hn]⟩
  · simp only [tree_leaves, hn, if_false, hb]
    congr 1
    exact filterMap_congr_mem _ _ _ (fun i _ => hfe _ i)

/-- C10 (witness): errEngine (every fetch errs) and eW (every slot absent)
share a best hash; over [0, 3) the erring engine still answers Ok, with the
same (empty) response as the sparse engine. -/
theorem tree_leaves_err_indistinguishable_witness :
    (∃ l, tree_leaves errEngine id 0 0 3 none = .ok l) ∧
    tree_leaves errEngine id 0 0 3 none = tree_leaves eW id 0 0 3 none :=
  tree_leaves_err_indistinguishable errEngine eW id 0 0 3 none rfl
    (fun _ _ _ => Or.inr ⟨⟨(), rfl⟩, rfl⟩) (by decide)
